import Mathlib

/-
Verification of the trie-backed autocomplete core of the paper-recommender
frontend (frontend/app.js): the Trie class (insert / _getNode / _collect /
suggestions), the corpus loader (loadAllTermsAndBuildTrie with displayMap and
citationsMap), the suggestion ranker (renderSuggestions), and the keyboard
selection logic (ArrowDown / ArrowUp handlers).

Strings are modelled as List Char (one entry per code point, as produced by
JS for..of iteration); toLowerCase is modelled per-character, and the default
JS string sort is modelled as code-point order.  JS Array.prototype.sort is
specified to be a stable sort; it is modelled here by a stable insertion
sort, which is observationally the unique stable sorting function.
-/

namespace PaperRec

/- ================= Stable sort (model of JS Array.prototype.sort) ======= -/

/-- Insert x into l, placing it before the first element y with le x y.
For a total le this is the stable insertion step: x goes after every
strictly smaller element and before the first element it compares
less-or-equal to. -/
def insertSorted (le : α → α → Bool) (x : α) : List α → List α
  | [] => [x]
  | y :: ys => if le x y then x :: y :: ys else y :: insertSorted le x ys

/-- Stable insertion sort with respect to le. -/
def sortBy (le : α → α → Bool) : List α → List α
  | [] => []
  | x :: xs => insertSorted le x (sortBy le xs)

/- ================= Code-point lexicographic comparison ================== -/

/-- Non-strict lexicographic comparison of char lists by code point, the
order in which the trie enumerates suffixes. -/
def cpLe : List Char → List Char → Bool
  | [], _ => true
  | _ :: _, [] => false
  | a :: as, b :: bs => if a < b then true else if a = b then cpLe as bs else false

/- ================= Trie (class Trie / TrieNode in app.js) =============== -/

/-- TrieNode: children is the JS object mapping single characters to child
nodes, modelled as an association list in insertion order with unique keys;
isWord marks a terminal node. -/
inductive TrieNode where
  | mk (children : List (Char × TrieNode)) (isWord : Bool)

def TrieNode.children : TrieNode → List (Char × TrieNode)
  | .mk cs _ => cs

def TrieNode.isWord : TrieNode → Bool
  | .mk _ b => b

/-- new TrieNode(): empty children object, isWord = false. -/
def emptyNode : TrieNode := .mk [] false

/-- JS object property read children[ch]. -/
def childLookup : List (Char × TrieNode) → Char → Option TrieNode
  | [], _ => none
  | (k, n) :: rest, c => if k = c then some n else childLookup rest c

/-- JS object property write children[ch] = node: overwrites in place if the
key exists, otherwise appends (insertion order). -/
def childUpdate : List (Char × TrieNode) → Char → TrieNode → List (Char × TrieNode)
  | [], c, n => [(c, n)]
  | (k, m) :: rest, c, n =>
    if k = c then (k, n) :: rest else (k, m) :: childUpdate rest c n

/-- Model of toLowerCase applied to a string iterated per code point. -/
def lowerStr (s : List Char) : List Char := s.map Char.toLower

/-- Loop body of Trie.insert: walk/create one child per character, then mark
the final node terminal. -/
def insertAux : TrieNode → List Char → TrieNode
  | .mk cs _, [] => .mk cs true
  | .mk cs b, c :: rest =>
    let child := (childLookup cs c).getD emptyNode
    .mk (childUpdate cs c (insertAux child rest)) b

/-- Trie.insert(word): early return on falsy (empty) word, otherwise walk
word.toLowerCase(). -/
def Trie.insert (t : TrieNode) (word : List Char) : TrieNode :=
  if word = [] then t else insertAux t (lowerStr word)

/-- Trie._getNode(prefix): walk to the node spelling the given prefix. -/
def getNode : TrieNode → List Char → Option TrieNode
  | n, [] => some n
  | n, c :: rest =>
    match childLookup n.children c with
    | none => none
    | some child => getNode child rest

/-- Object.keys(node.children).sort(): the children pairs in ascending key
order (keys are single code points, default JS sort). -/
def sortChildren (cs : List (Char × TrieNode)) : List (Char × TrieNode) :=
  sortBy (fun a b => decide (a.1 ≤ b.1)) cs

mutual

/-- Trie._collect(node, prefix, results, limit): depth-first collection of
terminal spellings, visiting children in ascending key order, pushing until
limit entries have been collected.  limit is an Int as in JS. -/
def collect : TrieNode → List Char → List (List Char) → Int → List (List Char)
  | .mk cs b, pfx, results, limit =>
    if (results.length : Int) ≥ limit then results
    else
      let results1 := if b then results ++ [pfx] else results
      collectList (sortChildren cs) pfx results1 limit
termination_by n _ _ _ => sizeOf n
decreasing_by
  have hins : ∀ (le : Char × TrieNode → Char × TrieNode → Bool)
      (x : Char × TrieNode) (l : List (Char × TrieNode)),
      sizeOf (insertSorted le x l) = sizeOf (x :: l) := by
    intro le x l
    induction l with
    | nil => simp [insertSorted]
    | cons y ys ih =>
      simp only [insertSorted]
      by_cases h : le x y = true
      · simp [h]
      · rw [if_neg (by simpa using h)]
        simp only [List.cons.sizeOf_spec] at *
        omega
  have hsort : ∀ (le : Char × TrieNode → Char × TrieNode → Bool)
      (l : List (Char × TrieNode)), sizeOf (sortBy le l) = sizeOf l := by
    intro le l
    induction l with
    | nil => simp [sortBy]
    | cons x xs ih =>
      simp only [sortBy]
      rw [hins]
      simp only [List.cons.sizeOf_spec] at *
      omega
  simp only [sortChildren]
  rw [hsort]
  simp only [TrieNode.mk.sizeOf_spec]
  omega

/-- The for-loop of _collect over the sorted children. -/
def collectList : List (Char × TrieNode) → List Char → List (List Char) → Int → List (List Char)
  | [], _, results, _ => results
  | (k, child) :: rest, pfx, results, limit =>
    if (results.length : Int) ≥ limit then results
    else collectList rest pfx (collect child (pfx ++ [k]) results limit) limit
termination_by kids _ _ _ => sizeOf kids
decreasing_by
  all_goals simp only [List.cons.sizeOf_spec, Prod.mk.sizeOf_spec]
  all_goals omega

end

/-- Trie.suggestions(prefix, limit): lower-case the prefix, walk to its node,
collect up to limit spellings. -/
def suggestions (t : TrieNode) (pfx : List Char) (limit : Int) : List (List Char) :=
  match getNode t (lowerStr pfx) with
  | none => []
  | some node => collect node (lowerStr pfx) [] limit

/-- Terminal membership: walks w from t and reads isWord, the observable
"t spells w as a complete term" predicate. -/
def memAux : TrieNode → List Char → Bool
  | n, [] => n.isWord
  | n, c :: rest =>
    match childLookup n.children c with
    | none => false
    | some child => memAux child rest

/-- Building a trie by the insert sequence of a term list. -/
def buildTrie (ts : List (List Char)) : TrieNode :=
  ts.foldl Trie.insert emptyNode

mutual

/-- The unbounded enumeration of a node: all suffixes spelled by terminal
descendants, in the depth-first ascending-key order of _collect. -/
def allWords : TrieNode → List (List Char)
  | .mk cs b =>
    (if b then [[]] else []) ++ allWordsList (sortChildren cs)
termination_by n => sizeOf n
decreasing_by
  have hins : ∀ (le : Char × TrieNode → Char × TrieNode → Bool)
      (x : Char × TrieNode) (l : List (Char × TrieNode)),
      sizeOf (insertSorted le x l) = sizeOf (x :: l) := by
    intro le x l
    induction l with
    | nil => simp [insertSorted]
    | cons y ys ih =>
      simp only [insertSorted]
      by_cases h : le x y = true
      · simp [h]
      · rw [if_neg (by simpa using h)]
        simp only [List.cons.sizeOf_spec] at *
        omega
  have hsort : ∀ (le : Char × TrieNode → Char × TrieNode → Bool)
      (l : List (Char × TrieNode)), sizeOf (sortBy le l) = sizeOf l := by
    intro le l
    induction l with
    | nil => simp [sortBy]
    | cons x xs ih =>
      simp only [sortBy]
      rw [hins]
      simp only [List.cons.sizeOf_spec] at *
      omega
  simp only [sortChildren]
  rw [hsort]
  simp only [TrieNode.mk.sizeOf_spec]
  omega

def allWordsList : List (Char × TrieNode) → List (List Char)
  | [] => []
  | (k, child) :: rest => (allWords child).map (k :: ·) ++ allWordsList rest
termination_by kids => sizeOf kids
decreasing_by
  all_goals simp only [List.cons.sizeOf_spec, Prod.mk.sizeOf_spec]
  all_goals omega

end

/-- Well-formedness of a trie node: children keys are unique at every level,
the invariant JS objects provide for free. -/
inductive WF : TrieNode → Prop where
  | mk : ∀ (cs : List (Char × TrieNode)) (b : Bool),
      (cs.map Prod.fst).Nodup →
      (∀ p ∈ cs, WF p.2) →
      WF (TrieNode.mk cs b)

/- ================= Counting matches ===================================== -/

/-- Number of nonempty terms of ts having p as a case-insensitive prefix,
i.e. the number of inserted terms matched by the query prefix p. -/
def matchCount (ts : List (List Char)) (p : List Char) : Nat :=
  (ts.filter (fun T => decide (T ≠ []) && (lowerStr p).isPrefixOf (lowerStr T))).length

/- ================= Corpus loader ======================================== -/

/-- Model of String.prototype.trim: strip leading and trailing whitespace. -/
def trimStr (s : List Char) : List Char :=
  ((s.dropWhile Char.isWhitespace).reverse.dropWhile Char.isWhitespace).reverse

/-- Loop of s.split(/\s+/): runs of whitespace separate tokens, and a string
beginning or ending with whitespace produces an empty leading or trailing
token, as in JS. -/
def splitWsAux : List Char → Bool → List Char → List (List Char)
  | [], _, cur => [cur.reverse]
  | c :: rest, lastWs, cur =>
    if c.isWhitespace then
      if lastWs then splitWsAux rest true cur
      else cur.reverse :: splitWsAux rest true []
    else splitWsAux rest false (c :: cur)

/-- Model of title.split(/\s+/). -/
def splitWs (s : List Char) : List (List Char) := splitWsAux s false []

/-- Paper record from the document source: absent citations_count is read as
0 and absent keywords as the empty list. -/
structure Paper where
  title : List Char
  keywords : List (List Char)
  citations_count : Nat
deriving DecidableEq

/-- The mutable index state of app.js: trie plus the two keyed objects
displayMap and citationsMap (JS objects modelled as optional-valued maps). -/
structure IndexState where
  trie : TrieNode
  displayMap : List Char → Option (List Char)
  citationsMap : List Char → Option Nat

/-- The state before loading: empty trie and empty maps. -/
def initState : IndexState :=
  { trie := emptyNode
    displayMap := fun _ => none
    citationsMap := fun _ => none }

/-- One recorded term occurrence, the shared body of the two forEach loops:
trie.insert(t); displayMap[l] = t; citationsMap[l] = max(citationsMap[l] || 0,
cite), where l = t.toLowerCase(). -/
def recordTerm (cite : Nat) (st : IndexState) (t : List Char) : IndexState :=
  { trie := Trie.insert st.trie t
    displayMap := fun w => if w = lowerStr t then some t else st.displayMap w
    citationsMap := fun w =>
      if w = lowerStr t then some (max ((st.citationsMap (lowerStr t)).getD 0) cite)
      else st.citationsMap w }

/-- The term occurrences a paper contributes, in program order: trimmed
nonempty keywords first, then (when the title is truthy) the raw
whitespace-split title tokens. -/
def paperTerms (p : Paper) : List (List Char) :=
  p.keywords.filterMap (fun k => if trimStr k = [] then none else some (trimStr k))
    ++ (if p.title = [] then [] else splitWs p.title)

/-- Per-paper ingestion: const cite = Number(p.citations_count || 0) and both
term loops. -/
def processPaper (st : IndexState) (p : Paper) : IndexState :=
  (paperTerms p).foldl (recordTerm p.citations_count) st

/-- loadAllTermsAndBuildTrie applied to a fetched paper list: early return
(state untouched) when there are no papers, otherwise ingest each paper. -/
def loadPapers (papers : List Paper) : IndexState :=
  if papers.length = 0 then initState else papers.foldl processPaper initState

/-- The FALLBACK_PAPERS loop: take the first successful response (even an
empty one stops the loop), skipping failures; no success leaves papers
empty. -/
def tryFallbacks : List (Option (List Paper)) → List Paper
  | [] => []
  | none :: rest => tryFallbacks rest
  | some ps :: _ => ps

/-- The fetch phase of the loader: primary response, then, when it failed or
parsed to an empty list, the ordered fallback loop. -/
def choosePapers (primary : Option (List Paper))
    (fallbacks : List (Option (List Paper))) : List Paper :=
  let papers := primary.getD []
  if papers.length = 0 then tryFallbacks fallbacks else papers

/-- Whole loadAllTermsAndBuildTrie with the network modelled as an oracle of
responses (none = unreachable or non-success status). -/
def loadAllTermsAndBuildTrie (primary : Option (List Paper))
    (fallbacks : List (Option (List Paper))) (st : IndexState) : IndexState :=
  let papers := choosePapers primary fallbacks
  if papers.length = 0 then st else papers.foldl processPaper st

/-- The flat record trace of a corpus run: every (term, cite) write the
loader performs, in order. -/
def runRecs (ps : List Paper) : List (List Char × Nat) :=
  ps.flatMap (fun p => (paperTerms p).map (fun t => (t, p.citations_count)))

/-- Uncurried recordTerm, one step of the record trace. -/
def recordPair (st : IndexState) (r : List Char × Nat) : IndexState :=
  recordTerm r.2 st r.1

/- ================= Suggestion ranker (renderSuggestions) =============== -/

/-- A rendered suggestion row: trie key, display term (displayMap[k] || k)
and citation count (citationsMap[k] || 0). -/
structure Sug where
  key : List Char
  term : List Char
  citations : Nat
deriving DecidableEq

/-- The map step of renderSuggestions. -/
def mkSug (dm : List Char → Option (List Char)) (cm : List Char → Option Nat)
    (k : List Char) : Sug :=
  { key := k
    term :=
      match dm k with
      | some d => if d = [] then k else d
      | none => k
    citations := (cm k).getD 0 }

/-- The JS comparator (a, b) => b.citations - a.citations as a weak
comes-before test: a may precede b when b.citations ≤ a.citations. -/
def leSug (a b : Sug) : Bool := decide (b.citations ≤ a.citations)

/-- The list renderSuggestions builds for a query prefix: trie suggestions
with the configured limit 8, resolved through the maps, stably sorted by
descending citations. -/
def renderList (t : TrieNode) (dm : List Char → Option (List Char))
    (cm : List Char → Option Nat) (q : List Char) : List Sug :=
  sortBy leSug ((suggestions t q 8).map (mkSug dm cm))

/-- renderSuggestions on an index state. -/
def stateRender (st : IndexState) (q : List Char) : List Sug :=
  renderList st.trie st.displayMap st.citationsMap q

/- ================= Keyboard selection =================================== -/

/-- ArrowDown branch of the keydown handler: currentSelectionIndex++ then
wrap to 0 when it reaches items.length. -/
def arrowDown (n : Nat) (i : Int) : Int :=
  let j := i + 1
  if j ≥ (n : Int) then 0 else j

/-- ArrowUp branch: currentSelectionIndex-- then wrap to items.length - 1
when it goes below 0. -/
def arrowUp (n : Nat) (i : Int) : Int :=
  let j := i - 1
  if j < 0 then (n : Int) - 1 else j

/- ================= Theorems ============================================ -/

theorem insertSorted_perm (le : α → α → Bool) (x : α) (l : List α) :
    (insertSorted le x l).Perm (x :: l) := by
  induction l with
  | nil => simp [insertSorted]
  | cons y ys ih =>
    simp only [insertSorted]
    by_cases h : le x y = true
    · simp [h]
    · simp only [h, if_false]
      exact ((ih.cons y).trans (List.Perm.swap x y ys))

theorem sortBy_perm (le : α → α → Bool) (l : List α) :
    (sortBy le l).Perm l := by
  induction l with
  | nil => simp [sortBy]
  | cons x xs ih =>
    exact (insertSorted_perm le x (sortBy le xs)).trans (ih.cons x)

theorem length_sortBy (le : α → α → Bool) (l : List α) :
    (sortBy le l).length = l.length :=
  (sortBy_perm le l).length_eq

theorem mem_insertSorted {le : α → α → Bool} {x z : α} {l : List α} :
    z ∈ insertSorted le x l ↔ z = x ∨ z ∈ l := by
  have := insertSorted_perm le x l
  constructor
  · intro hz
    have := this.mem_iff.mp hz
    simpa using this
  · intro hz
    apply this.mem_iff.mpr
    simpa using hz

theorem pairwise_insertSorted {le : α → α → Bool}
    (htrans : ∀ a b c, le a b = true → le b c = true → le a c = true)
    (htot : ∀ a b, le a b = true ∨ le b a = true)
    (x : α) {l : List α} (hl : List.Pairwise (fun a b => le a b = true) l) :
    List.Pairwise (fun a b => le a b = true) (insertSorted le x l) := by
  induction l with
  | nil => simp [insertSorted]
  | cons y ys ih =>
    simp only [insertSorted]
    rcases List.pairwise_cons.mp hl with ⟨hy, hys⟩
    by_cases h : le x y = true
    · simp only [h, if_true]
      refine List.pairwise_cons.mpr ⟨?_, hl⟩
      intro z hz
      rcases List.mem_cons.mp hz with rfl | hz
      · exact h
      · exact htrans _ _ _ h (hy z hz)
    · simp only [h, if_false]
      refine List.pairwise_cons.mpr ⟨?_, ih hys⟩
      intro z hz
      rcases mem_insertSorted.mp hz with hz | hz
      · subst hz
        rcases htot y z with h' | h'
        · exact h'
        · exact absurd h' h
      · exact hy z hz

theorem pairwise_sortBy {le : α → α → Bool}
    (htrans : ∀ a b c, le a b = true → le b c = true → le a c = true)
    (htot : ∀ a b, le a b = true ∨ le b a = true) (l : List α) :
    List.Pairwise (fun a b => le a b = true) (sortBy le l) := by
  induction l with
  | nil => simp [sortBy]
  | cons x xs ih => exact pairwise_insertSorted htrans htot x ih

theorem filter_insertSorted_pos {le : α → α → Bool} {p : α → Bool} {x : α}
    (hx : p x = true) (hclass : ∀ y, le x y = false → p y = false)
    (l : List α) :
    List.filter p (insertSorted le x l) = x :: List.filter p l := by
  induction l with
  | nil => simp [insertSorted, hx]
  | cons y ys ih =>
    simp only [insertSorted]
    by_cases h : le x y = true
    · simp [h, List.filter_cons, hx]
    · have hy : p y = false := hclass y (by simpa using h)
      simp [h, List.filter_cons, hy, ih]

theorem filter_insertSorted_neg {le : α → α → Bool} {p : α → Bool} {x : α}
    (hx : p x = false) (l : List α) :
    List.filter p (insertSorted le x l) = List.filter p l := by
  induction l with
  | nil => simp [insertSorted, hx]
  | cons y ys ih =>
    simp only [insertSorted]
    by_cases h : le x y = true
    · simp [h, List.filter_cons, hx]
    · simp [h, List.filter_cons, ih]

theorem filter_sortBy {le : α → α → Bool} {p : α → Bool}
    (hclass : ∀ x y, p x = true → le x y = false → p y = false)
    (l : List α) :
    List.filter p (sortBy le l) = List.filter p l := by
  induction l with
  | nil => simp [sortBy]
  | cons x xs ih =>
    simp only [sortBy]
    by_cases hx : p x = true
    · rw [filter_insertSorted_pos hx (fun y => hclass x y hx) (sortBy le xs), ih,
        List.filter_cons, hx]
      simp
    · have hx' : p x = false := by simpa using hx
      rw [filter_insertSorted_neg hx' (sortBy le xs), ih, List.filter_cons, hx']
      simp

theorem sizeOf_insertSorted [SizeOf α] (le : α → α → Bool) (x : α) (l : List α) :
    sizeOf (insertSorted le x l) = sizeOf (x :: l) := by
  induction l with
  | nil => simp [insertSorted]
  | cons y ys ih =>
    simp only [insertSorted]
    by_cases h : le x y = true
    · simp [h]
    · rw [if_neg (by simpa using h)]
      simp only [List.cons.sizeOf_spec] at *
      omega

theorem sizeOf_sortBy [SizeOf α] (le : α → α → Bool) (l : List α) :
    sizeOf (sortBy le l) = sizeOf l := by
  induction l with
  | nil => simp [sortBy]
  | cons x xs ih =>
    simp only [sortBy]
    rw [sizeOf_insertSorted]
    simp only [List.cons.sizeOf_spec] at *
    omega

theorem cpLe_nil (w : List Char) : cpLe [] w = true := by
  cases w <;> rfl

theorem cpLe_cons_cons_self (c : Char) (a b : List Char) :
    cpLe (c :: a) (c :: b) = cpLe a b := by
  simp [cpLe]

theorem cpLe_cons_cons_lt {c d : Char} (h : c < d) (a b : List Char) :
    cpLe (c :: a) (d :: b) = true := by
  simp [cpLe, h]

theorem WF.nodupKeys : ∀ {cs b}, WF (.mk cs b) → (cs.map Prod.fst).Nodup := by
  intro cs b h
  cases h with
  | mk _ _ hk _ => exact hk

theorem WF.members : ∀ {cs b}, WF (.mk cs b) → ∀ p ∈ cs, WF p.2 := by
  intro cs b h
  cases h with
  | mk _ _ _ hm => exact hm

/- ================= Basic child-map lemmas =============================== -/

theorem childLookup_mem {cs : List (Char × TrieNode)} {c : Char} {n : TrieNode}
    (h : childLookup cs c = some n) : (c, n) ∈ cs := by
  induction cs with
  | nil => simp [childLookup] at h
  | cons p rest ih =>
    obtain ⟨k, m⟩ := p
    simp only [childLookup] at h
    by_cases hk : k = c
    · rw [if_pos hk] at h
      subst hk
      simp only [Option.some.injEq] at h
      subst h
      exact List.mem_cons_self _ _
    · rw [if_neg hk] at h
      exact List.mem_cons_of_mem _ (ih h)

theorem mem_childLookup {cs : List (Char × TrieNode)} {c : Char} {n : TrieNode}
    (hk : (cs.map Prod.fst).Nodup) (h : (c, n) ∈ cs) :
    childLookup cs c = some n := by
  induction cs with
  | nil => simp at h
  | cons p rest ih =>
    obtain ⟨k, m⟩ := p
    simp only [List.map_cons, List.nodup_cons] at hk
    rcases List.mem_cons.mp h with heq | hmem
    · injection heq with hc hn
      subst hc
      subst hn
      simp [childLookup]
    · have hkc : k ≠ c := by
        intro hkc
        subst hkc
        exact hk.1 (List.mem_map_of_mem Prod.fst hmem)
      simp only [childLookup, if_neg hkc]
      exact ih hk.2 hmem

theorem childLookup_childUpdate (cs : List (Char × TrieNode)) (c d : Char)
    (n : TrieNode) :
    childLookup (childUpdate cs c n) d =
      if c = d then some n else childLookup cs d := by
  induction cs with
  | nil =>
    simp only [childUpdate, childLookup]
  | cons p rest ih =>
    obtain ⟨k, m⟩ := p
    simp only [childUpdate]
    by_cases hk : k = c
    · subst hk
      by_cases hd : k = d
      · subst hd
        simp [childLookup]
      · simp [childLookup, hd]
    · simp only [if_neg hk, childLookup]
      by_cases hd : k = d
      · subst hd
        have : ¬ c = k := fun h => hk h.symm
        simp [this]
      · simp [hd, ih]

theorem map_fst_childUpdate (cs : List (Char × TrieNode)) (c : Char) (n : TrieNode) :
    (childUpdate cs c n).map Prod.fst =
      if c ∈ cs.map Prod.fst then cs.map Prod.fst else cs.map Prod.fst ++ [c] := by
  induction cs with
  | nil => simp [childUpdate]
  | cons p rest ih =>
    obtain ⟨k, m⟩ := p
    simp only [childUpdate]
    by_cases hk : k = c
    · subst hk
      simp
    · have : ¬ c = k := fun h => hk h.symm
      simp only [if_neg hk, List.map_cons, ih, List.mem_cons, this, false_or]
      by_cases hmem : c ∈ rest.map Prod.fst
      · simp [hmem]
      · simp [hmem]

theorem mem_childUpdate {cs : List (Char × TrieNode)} {c : Char} {n : TrieNode}
    {p : Char × TrieNode} (h : p ∈ childUpdate cs c n) : p = (c, n) ∨ p ∈ cs := by
  induction cs with
  | nil =>
    simp only [childUpdate] at h
    left
    simpa using h
  | cons q rest ih =>
    obtain ⟨k, m⟩ := q
    simp only [childUpdate] at h
    by_cases hk : k = c
    · subst hk
      rw [if_pos rfl] at h
      rcases List.mem_cons.mp h with heq | hmem
      · left
        exact heq
      · right
        exact List.mem_cons_of_mem _ hmem
    · rw [if_neg hk] at h
      rcases List.mem_cons.mp h with heq | hmem
      · right
        exact heq ▸ List.mem_cons_self _ _
      · rcases ih hmem with h' | h'
        · left
          exact h'
        · right
          exact List.mem_cons_of_mem _ h'

/- ================= Insert and membership ================================ -/

theorem memAux_emptyNode (v : List Char) : memAux emptyNode v = false := by
  cases v with
  | nil => rfl
  | cons c r => rfl

theorem memAux_insertAux (w : List Char) : ∀ (t : TrieNode) (v : List Char),
    memAux (insertAux t w) v = (decide (v = w) || memAux t v) := by
  induction w with
  | nil =>
    intro t v
    cases t with
    | mk cs b =>
      cases v with
      | nil => simp [insertAux, memAux, TrieNode.isWord]
      | cons d r => simp [insertAux, memAux, TrieNode.children]
  | cons c rest ih =>
    intro t v
    cases t with
    | mk cs b =>
      cases v with
      | nil => simp [insertAux, memAux, TrieNode.isWord]
      | cons d r =>
        simp only [insertAux, memAux, TrieNode.children]
        rw [childLookup_childUpdate]
        by_cases hcd : c = d
        · subst hcd
          rw [if_pos rfl]
          cases hcl : childLookup cs c with
          | none =>
            simp [ih, memAux_emptyNode, List.cons.injEq]
          | some ch =>
            simp [ih, List.cons.injEq]
        · rw [if_neg hcd]
          have : ¬ (d :: r = c :: rest) := by
            intro h
            exact hcd (List.cons.injEq .. ▸ h).1.symm
          simp only [decide_eq_false this, Bool.false_or]

theorem memAux_insert (t : TrieNode) (w v : List Char) :
    memAux (Trie.insert t w) v =
      ((decide (w ≠ []) && decide (v = lowerStr w)) || memAux t v) := by
  unfold Trie.insert
  by_cases hw : w = []
  · simp [hw]
  · rw [if_neg hw, memAux_insertAux]
    simp [hw]

theorem memAux_foldl_insert : ∀ (ts : List (List Char)) (t : TrieNode) (v : List Char),
    memAux (ts.foldl Trie.insert t) v =
      (ts.any (fun T => decide (T ≠ []) && decide (v = lowerStr T)) || memAux t v) := by
  intro ts
  induction ts with
  | nil => simp
  | cons T ts ih =>
    intro t v
    simp only [List.foldl_cons, List.any_cons, ih, memAux_insert]
    cases h1 : decide (T ≠ []) && decide (v = lowerStr T) <;>
      cases h2 : ts.any (fun T => decide (T ≠ []) && decide (v = lowerStr T)) <;>
      simp

theorem memAux_buildTrie (ts : List (List Char)) (v : List Char) :
    memAux (buildTrie ts) v = true ↔ ∃ T ∈ ts, T ≠ [] ∧ v = lowerStr T := by
  unfold buildTrie
  rw [memAux_foldl_insert, memAux_emptyNode]
  simp [List.any_eq_true, and_assoc]

/- ================= getNode lemmas ======================================= -/

theorem getNode_append (p : List Char) : ∀ (t : TrieNode) (q : List Char),
    getNode t (p ++ q) = (getNode t p).bind (fun n => getNode n q) := by
  induction p with
  | nil => intro t q; simp [getNode]
  | cons c rest ih =>
    intro t q
    simp only [List.cons_append, getNode]
    cases childLookup t.children c with
    | none => simp
    | some child => simp [ih]

theorem memAux_eq_getNode : ∀ (w : List Char) (t : TrieNode),
    memAux t w = ((getNode t w).map TrieNode.isWord).getD false := by
  intro w
  induction w with
  | nil => intro t; rfl
  | cons c rest ih =>
    intro t
    simp only [memAux, getNode]
    cases childLookup t.children c with
    | none => simp
    | some child => simp [ih]

/- ================= WF preservation ====================================== -/

theorem WF_emptyNode : WF emptyNode :=
  WF.mk [] false (by simp) (by simp)

theorem WF_insertAux (w : List Char) : ∀ (t : TrieNode), WF t → WF (insertAux t w) := by
  induction w with
  | nil =>
    intro t hwf
    cases t with
    | mk cs b =>
      exact WF.mk cs true hwf.nodupKeys hwf.members
  | cons c rest ih =>
    intro t hwf
    cases t with
    | mk cs b =>
      refine WF.mk _ b ?_ ?_
      · rw [map_fst_childUpdate]
        by_cases hmem : c ∈ cs.map Prod.fst
        · rw [if_pos hmem]
          exact hwf.nodupKeys
        · rw [if_neg hmem]
          rw [List.nodup_append]
          exact ⟨hwf.nodupKeys, List.nodup_singleton c, by
            intro a ha hb
            simp only [List.mem_singleton] at hb
            subst hb
            exact hmem ha⟩
      · intro p hp
        rcases mem_childUpdate hp with heq | hmem
        · subst heq

          cases hcl : childLookup cs c with
          | none =>
            simp only
            refine ih _ ?_
            simp only [hcl, Option.getD_none]
            exact WF_emptyNode
          | some ch =>
            simp only
            refine ih _ ?_
            simp only [hcl, Option.getD_some]
            exact hwf.members _ (childLookup_mem hcl)
        · exact hwf.members _ hmem

theorem WF_insert (t : TrieNode) (w : List Char) (hwf : WF t) :
    WF (Trie.insert t w) := by
  unfold Trie.insert
  by_cases hw : w = []
  · simpa [hw]
  · rw [if_neg hw]
    exact WF_insertAux _ _ hwf

theorem WF_buildTrie (ts : List (List Char)) : WF (buildTrie ts) := by
  unfold buildTrie
  have : ∀ (l : List (List Char)) (t : TrieNode), WF t → WF (l.foldl Trie.insert t) := by
    intro l
    induction l with
    | nil => intro t h; exact h
    | cons x xs ih => intro t h; exact ih _ (WF_insert t x h)
  exact this ts emptyNode WF_emptyNode

theorem WF_getNode : ∀ (p : List Char) (t n : TrieNode),
    WF t → getNode t p = some n → WF n := by
  intro p
  induction p with
  | nil =>
    intro t n hwf h
    simp only [getNode, Option.some.injEq] at h
    exact h ▸ hwf
  | cons c rest ih =>
    intro t n hwf h
    cases t with
    | mk cs b =>
      simp only [getNode, TrieNode.children] at h
      cases hcl : childLookup cs c with
      | none => rw [hcl] at h; simp at h
      | some child =>
        rw [hcl] at h
        simp only at h
        exact ih child n (hwf.members _ (childLookup_mem hcl)) h

/- ================= Master lemma: collect is take of allWords ============ -/

mutual

theorem collect_eq_take : ∀ (n : TrieNode) (pfx : List Char)
    (res : List (List Char)) (limit : Int),
    collect n pfx res limit =
      res ++ ((allWords n).map (pfx ++ ·)).take (limit - res.length).toNat
  | .mk cs b, pfx, res, limit => by
    rw [collect.eq_1, allWords.eq_1]
    by_cases hl : (res.length : Int) ≥ limit
    · rw [if_pos hl]
      have h0 : (limit - res.length).toNat = 0 := by omega
      simp [h0]
    · rw [if_neg hl]
      cases b with
      | false =>
        rw [if_neg (show ¬(false = true) from by decide)]
        rw [collectList_eq_take (sortChildren cs) pfx res limit]
        rw [if_neg (show ¬(false = true) from by decide)]
        simp
      | true =>
        rw [if_pos (show true = true from rfl), if_pos (show true = true from rfl)]
        rw [collectList_eq_take (sortChildren cs) pfx (res ++ [pfx]) limit]
        have ht : (limit - res.length).toNat =
            ((limit - ((res : List (List Char)) ++ [pfx]).length).toNat) + 1 := by
          simp only [List.length_append, List.length_cons, List.length_nil]
          omega
        rw [List.map_append, List.map_cons, List.map_nil]
        simp only [List.append_nil]
        rw [ht, List.singleton_append, List.take_succ_cons]
        simp [List.append_assoc]
  termination_by n _ _ _ => sizeOf n
  decreasing_by
    all_goals
      simp only [sortChildren]
      rw [sizeOf_sortBy]
      simp only [TrieNode.mk.sizeOf_spec]
      omega

theorem collectList_eq_take : ∀ (kids : List (Char × TrieNode)) (pfx : List Char)
    (res : List (List Char)) (limit : Int),
    collectList kids pfx res limit =
      res ++ ((allWordsList kids).map (pfx ++ ·)).take (limit - res.length).toNat
  | [], pfx, res, limit => by
    simp [collectList.eq_1, allWordsList.eq_1]
  | (k, child) :: rest, pfx, res, limit => by
    rw [collectList.eq_2, allWordsList.eq_2]
    by_cases hl : (res.length : Int) ≥ limit
    · rw [if_pos hl]
      have h0 : (limit - res.length).toNat = 0 := by omega
      simp [h0]
    · rw [if_neg hl]
      rw [collect_eq_take child (pfx ++ [k]) res limit]
      rw [collectList_eq_take rest pfx
        (res ++ ((allWords child).map ((pfx ++ [k]) ++ ·)).take (limit - res.length).toNat)
        limit]
      have hmapmap : (allWords child).map ((pfx ++ [k]) ++ ·) =
          ((allWords child).map (k :: ·)).map (pfx ++ ·) := by
        rw [List.map_map]
        apply List.map_congr_left
        intro w _
        simp only [Function.comp_apply]
        exact (List.append_cons pfx k w).symm
      rw [hmapmap, List.map_append]
      rw [List.take_append_eq_append_take, List.append_assoc]
      congr 1
      congr 1
      have hlen : ((res : List (List Char)) ++
          (((allWords child).map (k :: ·)).map (pfx ++ ·)).take
            (limit - res.length).toNat).length =
          res.length + min (limit - res.length).toNat
            (((allWords child).map (k :: ·)).map (pfx ++ ·)).length := by
        simp [List.length_append, List.length_take]
      rw [hlen]
      congr 1
      omega
  termination_by kids _ _ _ => sizeOf kids
  decreasing_by
    all_goals simp only [List.cons.sizeOf_spec, Prod.mk.sizeOf_spec]
    all_goals omega

end

theorem suggestions_eq_take (t : TrieNode) (pfx : List Char) (limit : Int) :
    suggestions t pfx limit =
      match getNode t (lowerStr pfx) with
      | none => []
      | some n => ((allWords n).map (lowerStr pfx ++ ·)).take limit.toNat := by
  unfold suggestions
  cases getNode t (lowerStr pfx) with
  | none => rfl
  | some n =>
    simp only
    rw [collect_eq_take]
    simp

theorem length_suggestions_le (t : TrieNode) (pfx : List Char) (limit : Int) :
    (suggestions t pfx limit).length ≤ limit.toNat := by
  rw [suggestions_eq_take]
  cases getNode t (lowerStr pfx) with
  | none => simp
  | some n =>
    simp only
    exact (List.length_take _ _).le.trans (by simp)

theorem suggestions_nonpos (t : TrieNode) (pfx : List Char) (limit : Int)
    (h : limit ≤ 0) : suggestions t pfx limit = [] := by
  have : limit.toNat = 0 := by omega
  rw [suggestions_eq_take]
  cases getNode t (lowerStr pfx) with
  | none => rfl
  | some n => simp [this]

/- ================= allWords characterization ============================ -/

theorem sizeOf_snd_lt_of_mem : ∀ {cs : List (Char × TrieNode)} {k : Char}
    {child : TrieNode}, (k, child) ∈ cs → sizeOf child < sizeOf cs := by
  intro cs
  induction cs with
  | nil => intro k child h; simp at h
  | cons p rest ih =>
    intro k child h
    rcases List.mem_cons.mp h with heq | hmem
    · obtain ⟨k', m⟩ := p
      injection heq with hk hm
      subst hm
      simp only [List.cons.sizeOf_spec, Prod.mk.sizeOf_spec]
      omega
    · have := ih hmem
      simp only [List.cons.sizeOf_spec]
      omega

theorem mem_sortChildren {cs : List (Char × TrieNode)} {p : Char × TrieNode} :
    p ∈ sortChildren cs ↔ p ∈ cs :=
  (sortBy_perm _ cs).mem_iff

theorem nodupKeys_sortChildren {cs : List (Char × TrieNode)}
    (h : (cs.map Prod.fst).Nodup) : ((sortChildren cs).map Prod.fst).Nodup :=
  (((sortBy_perm _ cs).map Prod.fst).nodup_iff).mpr h

theorem pairwise_keys_sortChildren {cs : List (Char × TrieNode)}
    (h : (cs.map Prod.fst).Nodup) :
    List.Pairwise (fun a b => a.1 < b.1) (sortChildren cs) := by
  have hle : List.Pairwise (fun a b => decide (a.1 ≤ b.1) = true) (sortChildren cs) := by
    apply pairwise_sortBy
    · intro a b c hab hbc
      simp only [decide_eq_true_eq] at *
      exact le_trans hab hbc
    · intro a b
      rcases le_total a.1 b.1 with h' | h'
      · left; simpa using h'
      · right; simpa using h'
  have hne : List.Pairwise (fun a b => a.1 ≠ b.1) (sortChildren cs) :=
    List.pairwise_map.mp (nodupKeys_sortChildren h)
  exact (hle.and hne).imp (fun hab => lt_of_le_of_ne (by simpa using hab.1) hab.2)

theorem mem_allWordsList : ∀ (kids : List (Char × TrieNode)) (w : List Char),
    w ∈ allWordsList kids ↔
      ∃ k child, (k, child) ∈ kids ∧ ∃ s, s ∈ allWords child ∧ w = k :: s := by
  intro kids
  induction kids with
  | nil =>
    intro w
    rw [allWordsList.eq_1]
    simp
  | cons p rest ih =>
    intro w
    obtain ⟨k, child⟩ := p
    rw [allWordsList.eq_2]
    simp only [List.mem_append, List.mem_map, ih]
    constructor
    · intro h
      rcases h with ⟨s, hs, hw⟩ | ⟨k', child', hmem, s, hs, hw⟩
      · exact ⟨k, child, List.mem_cons_self _ _, s, hs, hw.symm⟩
      · exact ⟨k', child', List.mem_cons_of_mem _ hmem, s, hs, hw⟩
    · intro ⟨k', child', hmem, s, hs, hw⟩
      rcases List.mem_cons.mp hmem with heq | hmem'
      · injection heq with hk hc
        subst hk
        subst hc
        exact Or.inl ⟨s, hs, hw.symm⟩
      · exact Or.inr ⟨k', child', hmem', s, hs, hw⟩

theorem mem_allWords_fuel : ∀ (fuel : Nat) (n : TrieNode), sizeOf n ≤ fuel → WF n →
    ∀ w, w ∈ allWords n ↔ memAux n w = true := by
  intro fuel
  induction fuel with
  | zero =>
    intro n hn
    cases n with
    | mk cs b =>
      simp only [TrieNode.mk.sizeOf_spec] at hn
      omega
  | succ f ih =>
    intro n hn hwf w
    cases n with
    | mk cs b =>
      rw [allWords.eq_1]
      cases w with
      | nil =>
        simp only [List.mem_append, memAux, TrieNode.isWord]
        constructor
        · intro h
          rcases h with h | h
          · cases b with
            | true => rfl
            | false => simp at h
          · rcases (mem_allWordsList _ _).mp h with ⟨k, child, _, s, _, hw⟩
            exact absurd hw (by simp)
        · intro hb
          left
          rw [hb]
          simp
      | cons c s =>
        simp only [List.mem_append, memAux, TrieNode.children]
        have hif : (c :: s ∈ if b = true then [[]] else []) = False := by
          cases b <;> simp
        rw [hif]
        simp only [false_or, mem_allWordsList]
        cases hcl : childLookup cs c with
        | none =>
          simp only [show (false = true) = False from by simp, iff_false]
          rintro ⟨k, child, hmem, s', hs', hw⟩
          injection hw with hk hs2
          subst hk
          subst hs2
          have : childLookup cs c = some child :=
            mem_childLookup hwf.nodupKeys (mem_sortChildren.mp hmem)
          rw [hcl] at this
          exact Option.noConfusion this
        | some child =>
          have hchildmem : (c, child) ∈ cs := childLookup_mem hcl
          have hchildwf : WF child := hwf.members _ hchildmem
          have hchildsize : sizeOf child ≤ f := by
            have h1 := sizeOf_snd_lt_of_mem hchildmem
            simp only [TrieNode.mk.sizeOf_spec] at hn
            omega
          simp only
          constructor
          · rintro ⟨k, child', hmem, s', hs', hw⟩
            injection hw with hk hs2
            subst hk
            subst hs2
            have : childLookup cs c = some child' :=
              mem_childLookup hwf.nodupKeys (mem_sortChildren.mp hmem)
            rw [hcl] at this
            injection this with hcc
            subst hcc
            exact (ih child hchildsize hchildwf s).mp hs'
          · intro hmem
            exact ⟨c, child, mem_sortChildren.mpr hchildmem, s,
              (ih child hchildsize hchildwf s).mpr hmem, rfl⟩

theorem mem_allWords {n : TrieNode} (hwf : WF n) (w : List Char) :
    w ∈ allWords n ↔ memAux n w = true :=
  mem_allWords_fuel (sizeOf n) n le_rfl hwf w

theorem nodup_allWordsList : ∀ (kids : List (Char × TrieNode)),
    (∀ p ∈ kids, (allWords p.2).Nodup) → (kids.map Prod.fst).Nodup →
    (allWordsList kids).Nodup := by
  intro kids
  induction kids with
  | nil =>
    intro _ _
    rw [allWordsList.eq_1]
    simp
  | cons p rest ih =>
    intro hall hkeys
    obtain ⟨k, child⟩ := p
    rw [allWordsList.eq_2, List.nodup_append]
    simp only [List.map_cons, List.nodup_cons] at hkeys
    refine ⟨?_, ?_, ?_⟩
    · exact (hall _ (List.mem_cons_self _ _)).map (List.cons_injective)
    · exact ih (fun q hq => hall q (List.mem_cons_of_mem _ hq)) hkeys.2
    · intro w hw1 hw2
      rcases List.mem_map.mp hw1 with ⟨s, _, rfl⟩
      rcases (mem_allWordsList _ _).mp hw2 with ⟨k', child', hmem', s', _, heq⟩
      injection heq with hk _
      apply hkeys.1
      rw [hk]
      exact List.mem_map_of_mem Prod.fst hmem'

theorem nodup_allWords_fuel : ∀ (fuel : Nat) (n : TrieNode), sizeOf n ≤ fuel →
    WF n → (allWords n).Nodup := by
  intro fuel
  induction fuel with
  | zero =>
    intro n hn
    cases n with
    | mk cs b =>
      simp only [TrieNode.mk.sizeOf_spec] at hn
      omega
  | succ f ih =>
    intro n hn hwf
    cases n with
    | mk cs b =>
      rw [allWords.eq_1, List.nodup_append]
      refine ⟨?_, ?_, ?_⟩
      · cases b <;> simp
      · apply nodup_allWordsList
        · intro p hp
          obtain ⟨k, child⟩ := p
          have hp' := mem_sortChildren.mp hp
          apply ih child ?_ (hwf.members _ hp')
          have h1 := sizeOf_snd_lt_of_mem hp'
          simp only [TrieNode.mk.sizeOf_spec] at hn
          omega
        · exact nodupKeys_sortChildren hwf.nodupKeys
      · intro w hw1 hw2
        rcases (mem_allWordsList _ _).mp hw2 with ⟨k, child, _, s, _, heq⟩
        cases b with
        | true =>
          simp at hw1
          subst hw1
          exact List.noConfusion heq
        | false => simp at hw1

theorem nodup_allWords {n : TrieNode} (hwf : WF n) : (allWords n).Nodup :=
  nodup_allWords_fuel (sizeOf n) n le_rfl hwf

theorem sorted_allWordsList : ∀ (kids : List (Char × TrieNode)),
    List.Pairwise (fun a b => a.1 < b.1) kids →
    (∀ p ∈ kids, List.Pairwise (fun a b => cpLe a b = true) (allWords p.2)) →
    List.Pairwise (fun a b => cpLe a b = true) (allWordsList kids) := by
  intro kids
  induction kids with
  | nil =>
    intro _ _
    rw [allWordsList.eq_1]
    simp
  | cons p rest ih =>
    intro hkeys hall
    obtain ⟨k, child⟩ := p
    rw [allWordsList.eq_2, List.pairwise_append]
    rcases List.pairwise_cons.mp hkeys with ⟨hk1, hk2⟩
    refine ⟨?_, ?_, ?_⟩
    · rw [List.pairwise_map]
      exact (hall _ (List.mem_cons_self _ _)).imp
        (fun h => by rw [cpLe_cons_cons_self]; exact h)
    · exact ih hk2 (fun q hq => hall q (List.mem_cons_of_mem _ hq))
    · intro a ha b hb
      rcases List.mem_map.mp ha with ⟨s, _, rfl⟩
      rcases (mem_allWordsList _ _).mp hb with ⟨k', child', hmem', s', _, rfl⟩
      exact cpLe_cons_cons_lt (hk1 (k', child') hmem') _ _

theorem sorted_allWords_fuel : ∀ (fuel : Nat) (n : TrieNode), sizeOf n ≤ fuel →
    WF n → List.Pairwise (fun a b => cpLe a b = true) (allWords n) := by
  intro fuel
  induction fuel with
  | zero =>
    intro n hn
    cases n with
    | mk cs b =>
      simp only [TrieNode.mk.sizeOf_spec] at hn
      omega
  | succ f ih =>
    intro n hn hwf
    cases n with
    | mk cs b =>
      rw [allWords.eq_1, List.pairwise_append]
      refine ⟨?_, ?_, ?_⟩
      · cases b <;> simp
      · apply sorted_allWordsList
        · exact pairwise_keys_sortChildren hwf.nodupKeys
        · intro p hp
          obtain ⟨k, child⟩ := p
          have hp' := mem_sortChildren.mp hp
          apply ih child ?_ (hwf.members _ hp')
          have h1 := sizeOf_snd_lt_of_mem hp'
          simp only [TrieNode.mk.sizeOf_spec] at hn
          omega
      · intro a ha w _
        cases hb : b with
        | true =>
          rw [hb] at ha
          simp at ha
          subst ha
          exact cpLe_nil _
        | false =>
          rw [hb] at ha
          simp at ha

theorem sorted_allWords {n : TrieNode} (hwf : WF n) :
    List.Pairwise (fun a b => cpLe a b = true) (allWords n) :=
  sorted_allWords_fuel (sizeOf n) n le_rfl hwf

theorem isPrefixOf_iff_exists_append : ∀ (l₁ l₂ : List Char),
    l₁.isPrefixOf l₂ = true ↔ ∃ t, l₁ ++ t = l₂ := by
  intro l₁
  induction l₁ with
  | nil =>
    intro l₂
    simp [List.isPrefixOf]
  | cons a as ih =>
    intro l₂
    cases l₂ with
    | nil => simp [List.isPrefixOf]
    | cons b bs =>
      simp only [List.isPrefixOf, Bool.and_eq_true, beq_iff_eq, ih, List.cons_append,
        List.cons.injEq]
      constructor
      · rintro ⟨rfl, t, rfl⟩
        exact ⟨t, rfl, rfl⟩
      · rintro ⟨t, rfl, h2⟩
        exact ⟨rfl, t, h2⟩

theorem memAux_append_of_getNode {t n : TrieNode} {p s : List Char}
    (hget : getNode t p = some n) (h : memAux n s = true) :
    memAux t (p ++ s) = true := by
  rw [memAux_eq_getNode, getNode_append, hget, Option.some_bind, ← memAux_eq_getNode]
  exact h

theorem length_allWords_le (ts : List (List Char)) (p : List Char) (n : TrieNode)
    (hget : getNode (buildTrie ts) (lowerStr p) = some n) :
    (allWords n).length ≤ matchCount ts p := by
  have hwfn := WF_getNode _ _ _ (WF_buildTrie ts) hget
  have hnodup : ((allWords n).map (lowerStr p ++ ·)).Nodup :=
    (nodup_allWords hwfn).map (List.append_right_injective (lowerStr p))
  have hsub : (allWords n).map (lowerStr p ++ ·) ⊆
      (ts.filter (fun T => decide (T ≠ []) && (lowerStr p).isPrefixOf (lowerStr T))).map lowerStr := by
    intro w hw
    rcases List.mem_map.mp hw with ⟨s, hs, rfl⟩
    have hmem : memAux n s = true := (mem_allWords hwfn s).mp hs
    have hfull : memAux (buildTrie ts) (lowerStr p ++ s) = true :=
      memAux_append_of_getNode hget hmem
    rcases (memAux_buildTrie ts _).mp hfull with ⟨T, hT, hTne, hTeq⟩
    apply List.mem_map.mpr
    refine ⟨T, ?_, hTeq.symm⟩
    apply List.mem_filter.mpr
    refine ⟨hT, ?_⟩
    have hpre : (lowerStr p).isPrefixOf (lowerStr T) = true :=
      (isPrefixOf_iff_exists_append _ _).mpr ⟨s, hTeq⟩
    simp [hTne, hpre]
  have hlen := (List.subperm_of_subset hnodup hsub).length_le
  rw [List.length_map, List.length_map] at hlen
  exact hlen

/-- C3: for every term T inserted into the trie and every case-insensitive
prefix p of T, suggestions(p, limit) contains the lower-cased form of T
whenever limit is at least the number of inserted terms matching p. -/
theorem c3_prefixMatches_complete (ts : List (List Char)) (T p : List Char)
    (limit : Int) (hT : T ∈ ts) (hTne : T ≠ [])
    (hpre : (lowerStr p).isPrefixOf (lowerStr T) = true)
    (hlim : (matchCount ts p : Int) ≤ limit) :
    lowerStr T ∈ suggestions (buildTrie ts) p limit := by
  have hmem : memAux (buildTrie ts) (lowerStr T) = true :=
    (memAux_buildTrie ts _).mpr ⟨T, hT, hTne, rfl⟩
  rcases (isPrefixOf_iff_exists_append _ _).mp hpre with ⟨s, hs⟩
  rw [← hs] at hmem
  rw [memAux_eq_getNode, getNode_append] at hmem
  cases hget : getNode (buildTrie ts) (lowerStr p) with
  | none =>
    rw [hget] at hmem
    simp at hmem
  | some n =>
    rw [hget, Option.some_bind, ← memAux_eq_getNode] at hmem
    have hwfn := WF_getNode _ _ _ (WF_buildTrie ts) hget
    have hcount := length_allWords_le ts p n hget
    rw [suggestions_eq_take, hget]
    simp only
    have htake : ((allWords n).map (lowerStr p ++ ·)).take limit.toNat =
        (allWords n).map (lowerStr p ++ ·) := by
      apply List.take_of_length_le
      rw [List.length_map]
      omega
    rw [htake]
    exact List.mem_map.mpr ⟨s, (mem_allWords hwfn s).mpr hmem, hs⟩

/-- C3 witness: with corpus Ab, ax, the prefix A matches both terms, so with
limit 2 the suggestion list contains ab. -/
theorem c3_witness :
    ['A', 'b'] ∈ [['A', 'b'], ['a', 'x']] ∧ (['A', 'b'] : List Char) ≠ [] ∧
    (lowerStr ['A']).isPrefixOf (lowerStr ['A', 'b']) = true ∧
    ((matchCount [['A', 'b'], ['a', 'x']] ['A'] : Nat) : Int) ≤ 2 ∧
    lowerStr ['A', 'b'] ∈ suggestions (buildTrie [['A', 'b'], ['a', 'x']]) ['A'] 2 :=
  ⟨by decide, by decide, by decide, by decide,
    c3_prefixMatches_complete [['A', 'b'], ['a', 'x']] ['A', 'b'] ['A'] 2
      (by decide) (by decide) (by decide) (by decide)⟩

/-- C4: prefixMatches returns at most limit entries, in non-decreasing
code-point order of the suffixes after the prefix; a non-positive limit or a
prefix matching no inserted term yields the empty list. -/
theorem c4_prefixMatches_bounded_sorted_empty (ts : List (List Char))
    (p : List Char) (limit : Int) :
    (suggestions (buildTrie ts) p limit).length ≤ limit.toNat ∧
    List.Pairwise (fun a b => cpLe a b = true)
      ((suggestions (buildTrie ts) p limit).map (List.drop (lowerStr p).length)) ∧
    (limit ≤ 0 → suggestions (buildTrie ts) p limit = []) ∧
    ((∀ T ∈ ts, T = [] ∨ (lowerStr p).isPrefixOf (lowerStr T) = false) →
      suggestions (buildTrie ts) p limit = []) := by
  refine ⟨length_suggestions_le _ _ _, ?_, fun h => suggestions_nonpos _ _ _ h, ?_⟩
  · rw [suggestions_eq_take]
    cases hget : getNode (buildTrie ts) (lowerStr p) with
    | none => simp
    | some n =>
      simp only
      have hwfn := WF_getNode _ _ _ (WF_buildTrie ts) hget
      have hsorted : List.Pairwise (fun a b => cpLe a b = true)
          ((allWords n).take limit.toNat) :=
        List.Pairwise.sublist (List.take_sublist _ _) (sorted_allWords hwfn)
      rw [← List.map_take, List.map_map, List.pairwise_map]
      exact hsorted.imp (fun hab => by
        simpa [Function.comp_apply, List.drop_left] using hab)
  · intro hnone
    rw [suggestions_eq_take]
    cases hget : getNode (buildTrie ts) (lowerStr p) with
    | none => rfl
    | some n =>
      simp only
      have hempty : allWords n = [] := by
        by_contra hne
        obtain ⟨w, hw⟩ := List.exists_mem_of_ne_nil _ hne
        have hwfn := WF_getNode _ _ _ (WF_buildTrie ts) hget
        have hmem : memAux n w = true := (mem_allWords hwfn w).mp hw
        have hfull : memAux (buildTrie ts) (lowerStr p ++ w) = true :=
          memAux_append_of_getNode hget hmem
        rcases (memAux_buildTrie ts _).mp hfull with ⟨T, hT, hTne, hTeq⟩
        rcases hnone T hT with h | h
        · exact hTne h
        · have hpre : (lowerStr p).isPrefixOf (lowerStr T) = true :=
            (isPrefixOf_iff_exists_append _ _).mpr ⟨w, hTeq⟩
          rw [h] at hpre
          exact Bool.noConfusion hpre
      simp [hempty]

/-- C4 witness: at the corpus with single term b and query prefix a, the
suggestion list is empty (no match) and trivially bounded by the limit. -/
theorem c4_witness :
    (suggestions (buildTrie [['b']]) ['a'] 5).length ≤ (5 : Int).toNat ∧
    suggestions (buildTrie [['b']]) ['a'] 5 = [] :=
  ⟨(c4_prefixMatches_bounded_sorted_empty [['b']] ['a'] 5).1,
    (c4_prefixMatches_bounded_sorted_empty [['b']] ['a'] 5).2.2.2 (by decide)⟩

/- ================= Loader record-trace lemmas =========================== -/

theorem foldl_processPaper_eq : ∀ (ps : List Paper) (st : IndexState),
    ps.foldl processPaper st = (runRecs ps).foldl recordPair st := by
  intro ps
  induction ps with
  | nil => intro st; simp [runRecs]
  | cons p rest ih =>
    intro st
    simp only [List.foldl_cons, runRecs, List.flatMap_cons, List.foldl_append]
    rw [ih]
    congr 1
    unfold processPaper
    rw [List.foldl_map]
    rfl

theorem getLast?_cons_or (a : α) (l : List α) :
    (a :: l).getLast? = (l.getLast?).or (some a) := by
  cases l with
  | nil => simp
  | cons b l' =>
    rw [List.getLast?_cons_cons]
    cases h : (b :: l').getLast? with
    | none =>
      exfalso
      have : b :: l' ≠ [] := by simp
      rcases List.exists_mem_of_ne_nil _ this with ⟨x, _⟩
      rw [List.getLast?_eq_getLast _ this] at h
      exact Option.noConfusion h
    | some x => simp [Option.or]

theorem displayMap_foldl : ∀ (rs : List (List Char × Nat)) (st : IndexState)
    (l : List Char),
    (rs.foldl recordPair st).displayMap l =
      ((((rs.filter (fun r => decide (lowerStr r.1 = l))).map Prod.fst).getLast?).or
        (st.displayMap l)) := by
  intro rs
  induction rs with
  | nil => intro st l; simp
  | cons r rest ih =>
    intro st l
    rw [List.foldl_cons, ih]
    by_cases hm : lowerStr r.1 = l
    · have hflt : List.filter (fun r => decide (lowerStr r.1 = l)) (r :: rest)
          = r :: List.filter (fun r => decide (lowerStr r.1 = l)) rest := by
        rw [List.filter_cons, if_pos (by simpa using hm)]
      rw [hflt, List.map_cons, getLast?_cons_or, Option.or_assoc]
      congr 1
      simp [recordPair, recordTerm, hm.symm]
    · have hflt : List.filter (fun r => decide (lowerStr r.1 = l)) (r :: rest)
          = List.filter (fun r => decide (lowerStr r.1 = l)) rest := by
        rw [List.filter_cons, if_neg (by simpa using hm)]
      rw [hflt]
      congr 1
      simp only [recordPair, recordTerm]
      rw [if_neg (fun h => hm h.symm)]

theorem citationsMap_foldl : ∀ (rs : List (List Char × Nat)) (st : IndexState)
    (l : List Char),
    (rs.foldl recordPair st).citationsMap l =
      (if (rs.filter (fun r => decide (lowerStr r.1 = l))).map Prod.snd = []
       then st.citationsMap l
       else some (((rs.filter (fun r => decide (lowerStr r.1 = l))).map Prod.snd).foldl
         max ((st.citationsMap l).getD 0))) := by
  intro rs
  induction rs with
  | nil => intro st l; simp
  | cons r rest ih =>
    intro st l
    rw [List.foldl_cons, ih]
    by_cases hm : lowerStr r.1 = l
    · have hflt : List.filter (fun r => decide (lowerStr r.1 = l)) (r :: rest)
          = r :: List.filter (fun r => decide (lowerStr r.1 = l)) rest := by
        rw [List.filter_cons, if_pos (by simpa using hm)]
      rw [hflt, List.map_cons]
      have hst : (recordPair st r).citationsMap l =
          some (max ((st.citationsMap l).getD 0) r.2) := by
        rw [← hm]
        simp [recordPair, recordTerm]
      by_cases hrest : (rest.filter (fun r => decide (lowerStr r.1 = l))).map Prod.snd = []
      · rw [if_pos hrest, hst, if_neg (by simp), hrest]
        simp
      · rw [if_neg hrest, if_neg (by simp), hst]
        simp only [Option.getD_some, List.foldl_cons]
    · have hflt : List.filter (fun r => decide (lowerStr r.1 = l)) (r :: rest)
          = List.filter (fun r => decide (lowerStr r.1 = l)) rest := by
        rw [List.filter_cons, if_neg (by simpa using hm)]
      rw [hflt]
      have hst : (recordPair st r).citationsMap l = st.citationsMap l := by
        simp only [recordPair, recordTerm]
        rw [if_neg (fun h => hm h.symm)]
      rw [hst]

theorem foldl_max_perm : ∀ {ws ws' : List Nat}, ws.Perm ws' →
    ∀ (a : Nat), ws.foldl max a = ws'.foldl max a := by
  intro ws ws' h
  induction h with
  | nil => intro a; rfl
  | cons x _ ih => intro a; simp only [List.foldl_cons]; exact ih _
  | swap x y l => intro a; simp only [List.foldl_cons]; rw [Max.right_comm]
  | trans _ _ ih1 ih2 => intro a; exact (ih1 a).trans (ih2 a)

theorem runRecs_perm {ps ps' : List Paper} (h : ps.Perm ps') :
    (runRecs ps).Perm (runRecs ps') :=
  h.flatMap_right _

theorem citationsMap_loadPapers (ps : List Paper) (l : List Char) :
    (loadPapers ps).citationsMap l =
      (if (List.filter (fun r => decide (lowerStr r.1 = l)) (runRecs ps)).map Prod.snd = []
       then none
       else some ((((runRecs ps).filter (fun r => decide (lowerStr r.1 = l))).map
         Prod.snd).foldl max 0)) := by
  unfold loadPapers
  by_cases h : ps.length = 0
  · rw [if_pos h]
    have hnil : ps = [] := List.length_eq_zero.mp h
    subst hnil
    simp [runRecs, initState]
  · rw [if_neg h, foldl_processPaper_eq, citationsMap_foldl]
    simp [initState]

/- ================= Helpers for degraded states ========================== -/

theorem allWords_emptyNode : allWords emptyNode = [] := by
  rw [show emptyNode = TrieNode.mk [] false from rfl, allWords.eq_1]
  simp [sortChildren, sortBy, allWordsList.eq_1]

theorem suggestions_emptyNode (q : List Char) (limit : Int) :
    suggestions emptyNode q limit = [] := by
  rw [suggestions_eq_take]
  cases hq : getNode emptyNode (lowerStr q) with
  | none => rfl
  | some n =>
    have hn : n = emptyNode := by
      cases hql : lowerStr q with
      | nil =>
        rw [hql] at hq
        simp only [getNode, Option.some.injEq] at hq
        exact hq.symm
      | cons c r =>
        rw [hql] at hq
        simp [getNode, emptyNode, TrieNode.children, childLookup] at hq
    subst hn
    simp [allWords_emptyNode]

theorem tryFallbacks_replicate_append (k : Nat) (rest : List (Option (List Paper))) :
    tryFallbacks (List.replicate k none ++ rest) = tryFallbacks rest := by
  induction k with
  | zero => simp
  | succ m ih => simpa [List.replicate_succ, tryFallbacks] using ih

/- ================= Claim theorems (C1, C2, C5..C10) ===================== -/

/-- C1: for every trie and index maps state and every query prefix, the
rendered suggestion list is sorted by descending citations, within each
citation weight the entries keep the order of the trie enumeration (stable
tie-break), and the list never exceeds the configured limit 8. -/
theorem c1_renderSuggestions_ranked (t : TrieNode)
    (dm : List Char → Option (List Char)) (cm : List Char → Option Nat)
    (q : List Char) :
    List.Pairwise (fun a b => b.citations ≤ a.citations) (renderList t dm cm q) ∧
    (∀ w : Nat, (renderList t dm cm q).filter (fun s => decide (s.citations = w)) =
      ((suggestions t q 8).map (mkSug dm cm)).filter (fun s => decide (s.citations = w))) ∧
    (renderList t dm cm q).length ≤ 8 := by
  refine ⟨?_, ?_, ?_⟩
  · have h := @pairwise_sortBy Sug leSug
      (fun a b c hab hbc => by
        simp only [leSug, decide_eq_true_eq] at *
        omega)
      (fun a b => by
        simp only [leSug]
        rcases Nat.le_total b.citations a.citations with h | h
        · left; simpa using h
        · right; simpa using h)
      ((suggestions t q 8).map (mkSug dm cm))
    exact h.imp (fun hab => by simpa [leSug] using hab)
  · intro w
    unfold renderList
    apply filter_sortBy
    intro x y hx hxy
    simp only [leSug, decide_eq_true_eq, decide_eq_false_iff_not] at hx hxy ⊢
    omega
  · unfold renderList
    rw [length_sortBy, List.length_map]
    have h := length_suggestions_le t q 8
    simpa using h

/-- C2 counterexample: two papers record the keyword A then the keyword a
(same normalized term); the stored display is the later casing a, not the
first-seen A, so first-writer-wins fails. -/
theorem c2_display_first_writer_cex :
    (loadPapers [⟨[], [['A']], 0⟩, ⟨[], [['a']], 0⟩]).displayMap ['a'] = some ['a'] ∧
    (['a'] : List Char) ≠ ['A'] := by
  constructor
  · decide
  · decide

/-- C2 amended: displayMap[l] is assigned unconditionally on every
recording, so the stored display string for a normalized term is the one
from the LAST recording of that term (last writer wins). -/
theorem c2_display_last_writer (ps : List Paper) (l : List Char) :
    (loadPapers ps).displayMap l =
      (((runRecs ps).filter (fun r => decide (lowerStr r.1 = l))).map Prod.fst).getLast? := by
  unfold loadPapers
  by_cases h : ps.length = 0
  · rw [if_pos h]
    have hnil : ps = [] := List.length_eq_zero.mp h
    subst hnil
    simp [runRecs, initState]
  · rw [if_neg h, foldl_processPaper_eq, displayMap_foldl]
    simp [initState]

/-- C5: the stored weight of a normalized term after a corpus run is the
maximum of all weights recorded for it (foldl max over the record trace),
and it is independent of the order in which the papers are ingested. -/
theorem c5_weight_max_monotone (ps : List Paper) (l : List Char) :
    ((loadPapers ps).citationsMap l =
      (if (List.filter (fun r => decide (lowerStr r.1 = l)) (runRecs ps)).map Prod.snd = []
       then none
       else some ((((runRecs ps).filter (fun r => decide (lowerStr r.1 = l))).map
         Prod.snd).foldl max 0))) ∧
    (∀ ps' : List Paper, ps.Perm ps' →
      (loadPapers ps).citationsMap l = (loadPapers ps').citationsMap l) := by
  refine ⟨citationsMap_loadPapers ps l, ?_⟩
  intro ps' hperm
  rw [citationsMap_loadPapers, citationsMap_loadPapers]
  have hmap := ((runRecs_perm hperm).filter
    (fun r => decide (lowerStr r.1 = l))).map Prod.snd
  by_cases hA : (List.filter (fun r => decide (lowerStr r.1 = l)) (runRecs ps)).map Prod.snd = []
  · have hB : (List.filter (fun r => decide (lowerStr r.1 = l)) (runRecs ps')).map Prod.snd = [] := by
      rw [hA] at hmap
      exact hmap.symm.eq_nil
    rw [if_pos hA, if_pos hB]
  · have hB : ¬ (List.filter (fun r => decide (lowerStr r.1 = l)) (runRecs ps')).map Prod.snd = [] := by
      intro hB
      rw [hB] at hmap
      exact hA hmap.eq_nil
    rw [if_neg hA, if_neg hB]
    exact congrArg some (foldl_max_perm hmap 0)

/-- C5 witness: a term recorded with weights 3 then 5 looks up to 5, and
swapping the two papers leaves the stored weight unchanged. -/
theorem c5_witness :
    (loadPapers [⟨[], [['a']], 3⟩, ⟨[], [['a']], 5⟩]).citationsMap ['a'] = some 5 ∧
    (loadPapers [⟨[], [['a']], 3⟩, ⟨[], [['a']], 5⟩]).citationsMap ['a'] =
      (loadPapers [⟨[], [['a']], 5⟩, ⟨[], [['a']], 3⟩]).citationsMap ['a'] :=
  ⟨(c5_weight_max_monotone [⟨[], [['a']], 3⟩, ⟨[], [['a']], 5⟩] ['a']).1.trans (by decide),
    (c5_weight_max_monotone [⟨[], [['a']], 3⟩, ⟨[], [['a']], 5⟩] ['a']).2
      [⟨[], [['a']], 5⟩, ⟨[], [['a']], 3⟩] (by decide)⟩

/-- C6 counterexample: a paper whose title is a single space makes the
loader record the empty title token: the term index gains an entry keyed by
the empty string while the trie gains no terminal node, so the two key sets
do not coincide. -/
theorem c6_trie_index_coincide_cex :
    ((loadPapers [⟨[' '], [], 0⟩]).displayMap []).isSome = true ∧
    memAux (loadPapers [⟨[' '], [], 0⟩]).trie [] = false := by
  constructor
  · decide
  · decide

/-- C6 amended: after any corpus run the terminal trie words are exactly the
NONEMPTY keys of the term index (and displayMap and citationsMap always
share their key set); an entry keyed by the empty string, which an empty
title token can create, has no terminal node. -/
theorem c6_trie_index_coincide_nonempty (ps : List Paper) (w : List Char) :
    (memAux (loadPapers ps).trie w = true ↔
      ((loadPapers ps).displayMap w).isSome = true ∧ w ≠ []) ∧
    ((loadPapers ps).displayMap w).isSome = ((loadPapers ps).citationsMap w).isSome := by
  have main : ∀ (rs : List (List Char × Nat)) (st : IndexState),
      (∀ v, memAux st.trie v = true ↔ (st.displayMap v).isSome = true ∧ v ≠ []) →
      (∀ v, (st.displayMap v).isSome = (st.citationsMap v).isSome) →
      (∀ v, memAux (rs.foldl recordPair st).trie v = true ↔
        ((rs.foldl recordPair st).displayMap v).isSome = true ∧ v ≠ []) ∧
      (∀ v, ((rs.foldl recordPair st).displayMap v).isSome =
        ((rs.foldl recordPair st).citationsMap v).isSome) := by
    intro rs
    induction rs with
    | nil => intro st h1 h2; exact ⟨h1, h2⟩
    | cons r rest ih =>
      intro st h1 h2
      rw [List.foldl_cons]
      apply ih
      · intro v
        simp only [recordPair, recordTerm, memAux_insert]
        by_cases hv : v = lowerStr r.1
        · rw [if_pos hv]
          by_cases hr : r.1 = []
          · have hvnil : v = [] := by simp [hv, hr, lowerStr]
            simp only [hr, hvnil]
            simp [h1, memAux_insert]
          · have hlne : ¬ lowerStr r.1 = [] := by simp [lowerStr, hr]
            have hvne : v ≠ [] := by
              rw [hv]
              exact hlne
            simp [hr, hv, hvne, hlne]
        · rw [if_neg hv]
          have : (decide (r.1 ≠ []) && decide (v = lowerStr r.1)) = false := by
            simp [hv]
          rw [this, Bool.false_or]
          exact h1 v
      · intro v
        simp only [recordPair, recordTerm]
        by_cases hv : v = lowerStr r.1
        · rw [if_pos hv, if_pos hv]
          simp
        · rw [if_neg hv, if_neg hv]
          exact h2 v
  have hinit1 : ∀ v, memAux initState.trie v = true ↔
      (initState.displayMap v).isSome = true ∧ v ≠ [] := by
    intro v
    simp [initState, memAux_emptyNode]
  have hinit2 : ∀ v, (initState.displayMap v).isSome =
      (initState.citationsMap v).isSome := by
    intro v
    simp [initState]
  unfold loadPapers
  by_cases h : ps.length = 0
  · rw [if_pos h]
    exact ⟨hinit1 w, hinit2 w⟩
  · rw [if_neg h, foldl_processPaper_eq]
    exact ⟨(main (runRecs ps) initState hinit1 hinit2).1 w,
      (main (runRecs ps) initState hinit1 hinit2).2 w⟩

/-- C7: when the primary fetch fails the loader scans the fallback sources
in their listed order and takes the first success; when every source fails
the index state is left untouched (empty trie and maps) and every
suggestion query on that state renders the empty list without failing. -/
theorem c7_fallback_and_empty_degradation (k : Nat) (ps : List Paper)
    (rest : List (Option (List Paper))) (q : List Char) :
    choosePapers none (List.replicate k none ++ some ps :: rest) = ps ∧
    choosePapers none (List.replicate k none) = [] ∧
    loadAllTermsAndBuildTrie none (List.replicate k none) initState = initState ∧
    stateRender initState q = [] := by
  have hrep : tryFallbacks (List.replicate k none) = [] := by
    have h := tryFallbacks_replicate_append k []
    simpa [tryFallbacks] using h
  have hchoose : choosePapers none (List.replicate k none) = [] := by
    unfold choosePapers
    simpa using hrep
  refine ⟨?_, hchoose, ?_, ?_⟩
  · unfold choosePapers
    simp only [Option.getD_none, List.length_nil, if_true]
    rw [tryFallbacks_replicate_append]
    rfl
  · unfold loadAllTermsAndBuildTrie
    rw [hchoose]
    rfl
  · unfold stateRender renderList
    simp [initState, suggestions_emptyNode, sortBy]

/-- C8 counterexample: inserting the whitespace-only string of one space is
not a no-op: the insert guard only rejects the empty string, so a child node
is created for the space character. -/
theorem c8_insert_blank_cex : Trie.insert emptyNode [' '] ≠ emptyNode := by
  intro h
  have h2 := congrArg TrieNode.children h
  simp [Trie.insert, insertAux, emptyNode, childLookup, childUpdate,
    TrieNode.children, lowerStr] at h2

/-- C8 amended: insert is a no-op exactly for the EMPTY string (the falsy
guard); whitespace-only strings are inserted like any other characters. -/
theorem c8_insert_empty_noop (t : TrieNode) : Trie.insert t [] = t := by
  simp [Trie.insert]

/-- C9: with n rendered suggestions and the cursor on a valid entry,
ArrowDown advances by one wrapping from the last index to 0 and ArrowUp
retreats by one wrapping from 0 to the last index; from no selection (-1),
four ArrowDown presses over 3 suggestions land back on index 0. -/
theorem c9_arrow_cycling (n : Nat) (i : Int) (hn : 1 ≤ n) (h0 : 0 ≤ i)
    (hi : i < (n : Int)) :
    (arrowDown n i = if i = (n : Int) - 1 then 0 else i + 1) ∧
    (arrowUp n i = if i = 0 then (n : Int) - 1 else i - 1) ∧
    arrowDown 3 (arrowDown 3 (arrowDown 3 (arrowDown 3 (-1)))) = 0 := by
  refine ⟨?_, ?_, by decide⟩
  · show (if i + 1 ≥ (n : Int) then 0 else i + 1) = if i = (n : Int) - 1 then 0 else i + 1
    split_ifs <;> omega
  · show (if i - 1 < 0 then (n : Int) - 1 else i - 1) = if i = 0 then (n : Int) - 1 else i - 1
    split_ifs <;> omega

/-- C9 witness: three suggestions with the cursor on the last entry. -/
theorem c9_witness :
    (1 ≤ 3 ∧ (0 : Int) ≤ 2 ∧ (2 : Int) < ((3 : Nat) : Int)) ∧
    (arrowDown 3 2 = if (2 : Int) = ((3 : Nat) : Int) - 1 then 0 else 2 + 1) ∧
    (arrowUp 3 2 = if (2 : Int) = 0 then ((3 : Nat) : Int) - 1 else 2 - 1) ∧
    arrowDown 3 (arrowDown 3 (arrowDown 3 (arrowDown 3 (-1)))) = 0 :=
  ⟨⟨by decide, by decide, by decide⟩,
    (c9_arrow_cycling 3 2 (by decide) (by decide) (by decide)).1,
    (c9_arrow_cycling 3 2 (by decide) (by decide) (by decide)).2.1,
    (c9_arrow_cycling 3 2 (by decide) (by decide) (by decide)).2.2⟩

/-- C10: ArrowUp pressed with no selection (index -1) moves the cursor
directly to the last entry, index n - 1, which is in range. -/
theorem c10_arrowUp_from_none (n : Nat) (hn : 1 ≤ n) :
    arrowUp n (-1) = (n : Int) - 1 ∧ 0 ≤ arrowUp n (-1) ∧
    arrowUp n (-1) < (n : Int) := by
  have h : arrowUp n (-1) = (n : Int) - 1 := by
    show (if (-1 : Int) - 1 < 0 then (n : Int) - 1 else (-1 : Int) - 1) = (n : Int) - 1
    rw [if_pos (by omega)]
  refine ⟨h, ?_, ?_⟩ <;> rw [h] <;> omega

/-- C10 witness: three suggestions, ArrowUp from none lands on index 2. -/
theorem c10_witness :
    (1 ≤ 3) ∧ arrowUp 3 (-1) = ((3 : Nat) : Int) - 1 ∧ 0 ≤ arrowUp 3 (-1) ∧
    arrowUp 3 (-1) < ((3 : Nat) : Int) :=
  ⟨by decide, (c10_arrowUp_from_none 3 (by decide)).1,
    (c10_arrowUp_from_none 3 (by decide)).2.1,
    (c10_arrowUp_from_none 3 (by decide)).2.2⟩

end PaperRec
